import Mathlib

/-!
# Verification of the eslint-bot core (src/server.js)

Shallow embedding of the diff-position mapping algorithm
(`getLineMapFromPatchString`), the file filter (`filterJavascriptFiles`)
and the commit-to-comment orchestration pipeline (`treatPayload`,
`app.post('/')` handler) of `src/server.js`.

JavaScript strings are modelled as `List Char` (obtained from Lean strings
via `String.data`); a JavaScript exception (`TypeError`) is modelled by
`Option`/a `crashed` flag; the JS object used as a line map is modelled as
an association list whose lookup returns the most recently written binding,
which matches the observable behaviour of JS property assignment and read.
-/

namespace EslintBot

/-! ## Splitting a string on newline, JS `patchString.split('\n')` -/

/-- `split('\n')` of JavaScript: the empty string yields one empty line,
a trailing newline yields a final empty line. -/
def splitLines : List Char → List (List Char)
  | [] => [[]]
  | c :: rest =>
    if c = '\n' then [] :: splitLines rest
    else
      match splitLines rest with
      | [] => [[c]]
      | l :: ls => (c :: l) :: ls

/-! ## The line map object -/

/-- The JS object built by `getLineMapFromPatchString`, as an association
list from post-change file line numbers to diff positions.  New bindings
are prepended; `getKV` returns the most recent one, as a JS property read
does. -/
abbrev LineMap := List (Int × Nat)

/-- JS property read `lineMap[k]`: `none` models `undefined`. -/
def getKV (m : LineMap) (k : Int) : Option Nat :=
  (m.find? (fun e => e.1 = k)).map (fun e => e.2)

/-- JS property write `lineMap[k] = v`, observed through `getKV`. -/
def recordKV (m : LineMap) (k : Int) (v : Nat) : LineMap := (k, v) :: m

/-- JS truthiness of `lineMap[line]`: `undefined` and `0` are falsy. -/
def jsTruthy : Option Nat → Bool
  | none => false
  | some n => n ≠ 0

/-! ## Classifying patch lines -/

/-- `line.match(/^@@.*/)`: the line starts with two `@` characters. -/
def isHeader : List Char → Bool
  | '@' :: '@' :: _ => true
  | _ => false

/-- An addition line: `'+' === line[0]` (for the absent `line[0]` of an
empty line, JS compares `undefined`, which is not `'+'`). -/
def isAddition (l : List Char) : Bool := l.head? = some '+'

/-- A deletion line: `'-' === line[0]`. -/
def isDeletion (l : List Char) : Bool := l.head? = some '-'

/-- Lines on which the code advances `fileLineIndex`: every line that is
neither a hunk header nor a deletion. -/
def advancesFileLine (l : List Char) : Bool := !isHeader l && !isDeletion l

/-- Decimal value of a digit run, as JS number coercion of the matched
digit string. -/
def digitsToNat (ds : List Char) : Nat :=
  ds.foldl (fun n c => n * 10 + (c.toNat - '0'.toNat)) 0

/-- `line.match(/\+[0-9]+/)`: value of the first `+`-prefixed digit run of
the line, `none` when the regex does not match (in which case the JS code
dereferences `null` and throws a `TypeError`). -/
def firstPlusNum : List Char → Option Nat
  | [] => none
  | c :: rest =>
    if c = '+' then
      let ds := rest.takeWhile Char.isDigit
      if ds.isEmpty then firstPlusNum rest else some (digitsToNat ds)
    else firstPlusNum rest

/-! ## The mapper itself (src/server.js lines 107-124) -/

/-- The mutable state of `getLineMapFromPatchString`'s reduce loop:
the two counters and the accumulated map. -/
structure MapState where
  diffLineIndex : Nat
  fileLineIndex : Int
  lineMap : LineMap
deriving DecidableEq

/-- One iteration of the reduce body of `getLineMapFromPatchString`:
hunk headers reset `fileLineIndex` to `newStart - 1` (throwing, i.e.
`none`, when the header carries no `+<digits>` field); every other line
increments `diffLineIndex`; non-deletion lines increment `fileLineIndex`;
addition lines record `lineMap[fileLineIndex] = diffLineIndex`. -/
def stepLine (s : MapState) (line : List Char) : Option MapState :=
  if isHeader line then
    match firstPlusNum line with
    | none => none
    | some n => some { s with fileLineIndex := (n : Int) - 1 }
  else if line.head? = some '-' then
    some { s with diffLineIndex := s.diffLineIndex + 1 }
  else if line.head? = some '+' then
    some ⟨s.diffLineIndex + 1, s.fileLineIndex + 1,
          recordKV s.lineMap (s.fileLineIndex + 1) (s.diffLineIndex + 1)⟩
  else
    some { s with diffLineIndex := s.diffLineIndex + 1,
                  fileLineIndex := s.fileLineIndex + 1 }

/-- The reduce loop over the split lines. -/
def processLines (s : MapState) : List (List Char) → Option MapState
  | [] => some s
  | l :: ls =>
    match stepLine s l with
    | none => none
    | some s' => processLines s' ls

/-- Initial reduce state: both counters 0, empty map. -/
def initState : MapState := ⟨0, 0, []⟩

/-- `getLineMapFromPatchString(patchString)` of src/server.js: split on
newlines and reduce; `none` models a thrown `TypeError` (a hunk-header
line without a `+<digits>` field). -/
def getLineMapFromPatchString (patchString : String) : Option LineMap :=
  (processLines initState (splitLines patchString.data)).map (fun s => s.lineMap)

/-- The same function applied to a possibly absent (`undefined`) patch, as
it is by `lintContent` on a `ChangedFile` without a `patch` field: calling
`.split` on `undefined` throws a `TypeError`, modelled by `none`. -/
def getLineMapOpt : Option String → Option LineMap
  | none => none
  | some p => getLineMapFromPatchString p

/-! ## Data model of the pipeline (src/server.js lines 34-210) -/

/-- One entry of a commit's `files` array; `patch` may be absent
(binary file, rename without change). -/
structure ChangedFile where
  filename : String
  patch : Option String
deriving DecidableEq

/-- One commit of the pull request. -/
structure Commit where
  sha : String
deriving DecidableEq

/-- `payload.pull_request`. -/
structure PullReq where
  number : Int
deriving DecidableEq

/-- A webhook event body; the `pull_request` key may be absent. -/
structure Body where
  pull_request : Option PullReq
deriving DecidableEq

/-- An ESLint message as consumed by `sendSingleComment`;
`ruleId` defaults to `'Eslint'` when absent. -/
structure Finding where
  ruleId : Option String
  message : String
  line : Int
deriving DecidableEq

/-- The external collaborators (GitHub API and ESLint) as response
oracles: `none` models an errored API callback (whose result argument is
then `undefined`); `fileFilter` models the configured `FILE_FILTER`
regex test. -/
structure Env where
  listCommits : Int → Option (List Commit)
  getCommitFiles : String → Option (List ChangedFile)
  getFileContent : String → String → Option String
  analyze : String → String → List Finding
  fileFilter : String → Bool

/-- Observable side effects of one webhook handling: the HostingClient
calls, comment submissions and error logs, in order. -/
inductive Effect where
  | callListCommits (number : Int)
  | callGetCommit (sha : String)
  | callGetContent (filename : String) (sha : String)
  | callCreateComment (number : Int) (sha : String) (filename : String)
      (position : Nat) (body : String)
  | logError
deriving DecidableEq

/-- Result of running a piece of the pipeline: the effects emitted before
it finished or threw, and whether it threw an uncaught exception.
Callbacks are modelled as run synchronously at their call site, in array
order; an uncaught exception stops everything after it, as it kills the
Node process. -/
structure Run where
  effects : List Effect
  crashed : Bool
deriving DecidableEq

/-- Sequential composition: after a crash, nothing further runs. -/
def Run.seq (a b : Run) : Run :=
  if a.crashed then a else ⟨a.effects ++ b.effects, b.crashed⟩

/-! ## The pipeline functions -/

/-- `filterJavascriptFiles` (src/server.js line 73):
`files.filter(({filename}) => filename.match(FILE_FILTER))`, with the
configured regex abstracted as the predicate `pat`. -/
def filterJavascriptFiles (pat : String → Bool) (files : List ChangedFile) :
    List ChangedFile :=
  files.filter (fun f => pat f.filename)

/-- The comment body `` `**${ruleId}**: ${message}` `` with the `'Eslint'`
default for an absent `ruleId`. -/
def commentBody (f : Finding) : String :=
  "**" ++ f.ruleId.getD "Eslint" ++ "**: " ++ f.message

/-- `sendSingleComment` (src/server.js lines 149-163): looks the finding's
file line up in the line map and submits a comment only when the result is
truthy. -/
def sendSingleComment (number : Int) (filename : String) (lineMap : LineMap)
    (f : Finding) (sha : String) : List Effect :=
  let diffLinePosition := getKV lineMap f.line
  if jsTruthy diffLinePosition then
    [.callCreateComment number sha filename (diffLinePosition.getD 0)
      (commentBody f)]
  else []

/-- `sendComments` (src/server.js lines 173-175): one submission attempt
per message. -/
def sendComments (number : Int) (filename : String) (lineMap : LineMap)
    (messages : List Finding) (sha : String) : List Effect :=
  messages.foldl (fun acc f => acc ++ sendSingleComment number filename lineMap f sha) []

/-- `downloadFile` (src/server.js lines 84-97) composed with its callback
`_.compose(sendComments, lintContent)`: on a content-fetch error the file
is logged and skipped (the callback is guarded by `else`); on success
`lintContent` builds the line map from the file's patch (throwing when the
patch is absent) and the ESLint messages are sent as comments. -/
def runDownloadFile (env : Env) (number : Int) (file : ChangedFile)
    (sha : String) : Run :=
  match env.getFileContent file.filename sha with
  | none => ⟨[.callGetContent file.filename sha, .logError], false⟩
  | some content =>
    match getLineMapOpt file.patch with
    | none => ⟨[.callGetContent file.filename sha], true⟩
    | some lineMap =>
      ⟨.callGetContent file.filename sha ::
        sendComments number file.filename lineMap (env.analyze content file.filename) sha,
       false⟩

/-- `getFilesFromCommit` (src/server.js lines 55-66) composed with the
per-commit callback of `treatPayload`: on an errored `getCommit` the
callback destructures `{files}` from an `undefined` response, throwing a
`TypeError` before anything is logged; on success the files are filtered
and each selected file is downloaded and processed. -/
def runCommit (env : Env) (number : Int) (c : Commit) : Run :=
  match env.getCommitFiles c.sha with
  | none => ⟨[.callGetCommit c.sha], true⟩
  | some files =>
    (filterJavascriptFiles env.fileFilter files).foldl
      (fun r f => r.seq (runDownloadFile env number f c.sha))
      ⟨[.callGetCommit c.sha], false⟩

/-- `treatPayload` (src/server.js lines 183-193) with
`getCommitsForPullRequest` (lines 39-48) inlined: on an errored
`getCommits` the error is logged but the callback is still invoked with
`undefined`, so `commits.map` throws a `TypeError`; on success every
commit is processed. -/
def runTreatPayload (env : Env) (pr : PullReq) : Run :=
  match env.listCommits pr.number with
  | none => ⟨[.callListCommits pr.number, .logError], true⟩
  | some cs =>
    cs.foldl (fun r c => r.seq (runCommit env pr.number c))
      ⟨[.callListCommits pr.number], false⟩

/-- The `app.post('/')` handler (src/server.js lines 201-206): the payload
is treated only when it exists and carries a `pull_request`; the response
is always ended (`true` = acknowledged). -/
def runPostHandler (env : Env) (body : Option Body) : Run × Bool :=
  match body with
  | none => (⟨[], false⟩, true)
  | some b =>
    match b.pull_request with
    | none => (⟨[], false⟩, true)
    | some pr => (runTreatPayload env pr, true)

/-! ## Basic lemmas about the reduce loop -/

theorem stepLine_cases (s : MapState) (l : List Char) (s' : MapState)
    (h : stepLine s l = some s') :
    (isHeader l = true ∧ ∃ n, firstPlusNum l = some n ∧
        s' = { s with fileLineIndex := (n : Int) - 1 }) ∨
    (isHeader l = false ∧ isDeletion l = true ∧
        s' = { s with diffLineIndex := s.diffLineIndex + 1 }) ∨
    (isHeader l = false ∧ isDeletion l = false ∧ isAddition l = true ∧
        s' = ⟨s.diffLineIndex + 1, s.fileLineIndex + 1,
              recordKV s.lineMap (s.fileLineIndex + 1) (s.diffLineIndex + 1)⟩) ∨
    (isHeader l = false ∧ isDeletion l = false ∧ isAddition l = false ∧
        s' = { s with diffLineIndex := s.diffLineIndex + 1,
                      fileLineIndex := s.fileLineIndex + 1 }) := by
  unfold stepLine at h
  by_cases hh : isHeader l
  · rw [if_pos hh] at h
    cases hn : firstPlusNum l with
    | none => rw [hn] at h; cases h
    | some n =>
      rw [hn] at h
      exact Or.inl ⟨hh, n, rfl, (Option.some.inj h).symm⟩
  · rw [if_neg hh] at h
    have hh' : isHeader l = false := by simpa using hh
    by_cases hd : l.head? = some '-'
    · rw [if_pos hd] at h
      exact Or.inr (Or.inl ⟨hh', by simp [isDeletion, hd], (Option.some.inj h).symm⟩)
    · rw [if_neg hd] at h
      by_cases ha : l.head? = some '+'
      · rw [if_pos ha] at h
        exact Or.inr (Or.inr (Or.inl ⟨hh', by simp [isDeletion, hd],
          by simp [isAddition, ha], (Option.some.inj h).symm⟩))
      · rw [if_neg ha] at h
        exact Or.inr (Or.inr (Or.inr ⟨hh', by simp [isDeletion, hd],
          by simp [isAddition, ha], (Option.some.inj h).symm⟩))

theorem stepLine_header (s : MapState) (l : List Char) (n : Nat)
    (hh : isHeader l = true) (hn : firstPlusNum l = some n) :
    stepLine s l = some { s with fileLineIndex := (n : Int) - 1 } := by
  unfold stepLine
  rw [if_pos hh, hn]

theorem processLines_append (s : MapState) (l1 l2 : List (List Char)) :
    processLines s (l1 ++ l2) =
      (processLines s l1).bind fun s1 => processLines s1 l2 := by
  induction l1 generalizing s with
  | nil => simp [processLines]
  | cons l ls ih =>
    simp only [List.cons_append, processLines]
    cases stepLine s l with
    | none => simp
    | some s1 => simp [ih]

theorem processLines_diff (ls : List (List Char)) :
    ∀ s0 s : MapState, processLines s0 ls = some s →
      s.diffLineIndex = s0.diffLineIndex + ls.countP (fun l => !isHeader l) := by
  induction ls with
  | nil =>
    intro s0 s h
    simp only [processLines, Option.some.injEq] at h
    subst h
    simp
  | cons l ls ih =>
    intro s0 s h
    simp only [processLines] at h
    cases hst : stepLine s0 l with
    | none => rw [hst] at h; cases h
    | some s1 =>
      rw [hst] at h
      have hrec := ih s1 s h
      rcases stepLine_cases s0 l s1 hst with
        ⟨hh, n, _, rfl⟩ | ⟨hh, _, rfl⟩ | ⟨hh, _, _, rfl⟩ | ⟨hh, _, _, rfl⟩ <;>
        simp [List.countP_cons, hh, hrec] <;> omega

/-! ## The last hunk header of a prefix, and the spec-side file-line value -/

/-- Index of the rightmost hunk-header line, if any. -/
def lastHeaderIdx : List (List Char) → Option Nat
  | [] => none
  | l :: ls =>
    match lastHeaderIdx ls with
    | some j => some (j + 1)
    | none => if isHeader l then some 0 else none

theorem lastHeaderIdx_lt (ls : List (List Char)) :
    ∀ j, lastHeaderIdx ls = some j → j < ls.length := by
  induction ls with
  | nil => intro j h; cases h
  | cons l ls ih =>
    intro j h
    simp only [lastHeaderIdx] at h
    cases hl : lastHeaderIdx ls with
    | some j' =>
      rw [hl] at h
      cases h
      exact Nat.succ_lt_succ (ih j' hl)
    | none =>
      rw [hl] at h
      by_cases hh : isHeader l
      · rw [if_pos hh] at h; cases h; simp
      · rw [if_neg hh] at h; cases h

theorem lastHeaderIdx_concat (ls : List (List Char)) (l : List Char) :
    lastHeaderIdx (ls ++ [l]) =
      if isHeader l then some ls.length else lastHeaderIdx ls := by
  induction ls with
  | nil => simp [lastHeaderIdx]
  | cons a as ih =>
    have hstep : lastHeaderIdx ((a :: as) ++ [l]) =
        match lastHeaderIdx (as ++ [l]) with
        | some j => some (j + 1)
        | none => if isHeader a then some 0 else none := rfl
    rw [hstep, ih]
    by_cases hh : isHeader l
    · simp [hh]
    · simp only [if_neg hh]
      rfl

/-- The spec's running post-change file line after a list of patch lines:
`newStart - 1` from the last hunk header, plus one for every later
non-header, non-deletion line (before any header the code's initial value
`0` plays the role of `newStart - 1`); `none` when the last header has no
`+<digits>` field. -/
def fileLineFormula (lines : List (List Char)) : Option Int :=
  match lastHeaderIdx lines with
  | none => some (lines.countP advancesFileLine : Int)
  | some j =>
    match firstPlusNum (lines.getD j []) with
    | none => none
    | some n =>
      some ((n : Int) - 1 + ((lines.drop (j + 1)).countP advancesFileLine : Int))

/-- The post-change file line number of the addition line at index `i` of
the patch, per the spec's counter description. -/
def newFileLineAt (lines : List (List Char)) (i : Nat) : Option Int :=
  if isAddition (lines.getD i []) then fileLineFormula (lines.take (i + 1))
  else none

theorem processLines_singleton (s1 s : MapState) (l : List Char)
    (h : processLines s1 [l] = some s) : stepLine s1 l = some s := by
  simp only [processLines] at h
  cases hst : stepLine s1 l with
  | none => rw [hst] at h; cases h
  | some s' =>
    rw [hst] at h
    simp only [processLines, Option.some.injEq] at h
    subst h
    rfl

theorem getD_append_lt (ls ms : List (List Char)) (i : Nat) (hi : i < ls.length) :
    (ls ++ ms).getD i [] = ls.getD i [] := by
  simp [List.getD, List.getElem?_append_left hi]

theorem getD_concat_self (ls : List (List Char)) (l : List Char) :
    (ls ++ [l]).getD ls.length [] = l := by
  simp [List.getD]

theorem newFileLineAt_concat_stable (ls : List (List Char)) (l : List Char)
    (i : Nat) (hi : i < ls.length) :
    newFileLineAt (ls ++ [l]) i = newFileLineAt ls i := by
  unfold newFileLineAt
  rw [getD_append_lt ls [l] i hi, List.take_append_of_le_length hi]

theorem fileLineFormula_of_none (ls : List (List Char))
    (h : lastHeaderIdx ls = none) :
    fileLineFormula ls = some (ls.countP advancesFileLine : Int) := by
  unfold fileLineFormula
  rw [h]

theorem fileLineFormula_of_some (ls : List (List Char)) (j n : Nat)
    (h : lastHeaderIdx ls = some j) (hn : firstPlusNum (ls.getD j []) = some n) :
    fileLineFormula ls =
      some ((n : Int) - 1 + ((ls.drop (j + 1)).countP advancesFileLine : Int)) := by
  simp only [fileLineFormula, h, hn]

theorem fileLineFormula_of_some_none (ls : List (List Char)) (j : Nat)
    (h : lastHeaderIdx ls = some j) (hn : firstPlusNum (ls.getD j []) = none) :
    fileLineFormula ls = none := by
  simp only [fileLineFormula, h, hn]

theorem fileLineFormula_concat_nonheader (ls : List (List Char)) (l : List Char)
    (hh : isHeader l = false) (v : Int) (hf : fileLineFormula ls = some v) :
    fileLineFormula (ls ++ [l]) =
      some (v + if advancesFileLine l then 1 else 0) := by
  have hcat : lastHeaderIdx (ls ++ [l]) = lastHeaderIdx ls := by
    rw [lastHeaderIdx_concat, if_neg (by simp [hh])]
  cases hl : lastHeaderIdx ls with
  | none =>
    rw [fileLineFormula_of_none ls hl] at hf
    have hv := Option.some.inj hf
    rw [fileLineFormula_of_none (ls ++ [l]) (by rw [hcat, hl])]
    rw [List.countP_append, ← hv]
    by_cases hadv : advancesFileLine l
    · simp only [List.countP_cons, List.countP_nil, hadv, if_true, Option.some.injEq]
      push_cast
      ring
    · simp [hadv]
  | some j =>
    have hj := lastHeaderIdx_lt ls j hl
    cases hn : firstPlusNum (ls.getD j []) with
    | none =>
      rw [fileLineFormula_of_some_none ls j hl hn] at hf
      cases hf
    | some n =>
      rw [fileLineFormula_of_some ls j n hl hn] at hf
      have hv := Option.some.inj hf
      have hget : (ls ++ [l]).getD j [] = ls.getD j [] := getD_append_lt ls [l] j hj
      rw [fileLineFormula_of_some (ls ++ [l]) j n (by rw [hcat, hl])
        (by rw [hget]; exact hn)]
      rw [List.drop_append_of_le_length hj, List.countP_append, ← hv]
      by_cases hadv : advancesFileLine l
      · simp only [List.countP_cons, List.countP_nil, hadv, if_true, Option.some.injEq]
        push_cast
        ring
      · simp [hadv]

theorem processLines_fileLine (lines : List (List Char)) :
    ∀ s : MapState, processLines initState lines = some s →
      fileLineFormula lines = some s.fileLineIndex := by
  induction lines using List.reverseRecOn with
  | nil =>
    intro s h
    simp only [processLines, Option.some.injEq] at h
    subst h
    rfl
  | append_singleton ls l ih =>
    intro s h
    rw [processLines_append] at h
    cases hp : processLines initState ls with
    | none => rw [hp] at h; cases h
    | some s1 =>
      rw [hp] at h
      have hstep := processLines_singleton s1 s l h
      have hf := ih s1 hp
      rcases stepLine_cases s1 l s hstep with
        ⟨hh, n, hn, rfl⟩ | ⟨hh, hd, rfl⟩ | ⟨hh, hd, ha, rfl⟩ | ⟨hh, hd, ha, rfl⟩
      · have hcat : lastHeaderIdx (ls ++ [l]) = some ls.length := by
          rw [lastHeaderIdx_concat, if_pos hh]
        rw [fileLineFormula_of_some (ls ++ [l]) ls.length n hcat
          (by rw [getD_concat_self]; exact hn)]
        have hdrop : (ls ++ [l]).drop (ls.length + 1) = [] := by simp
        rw [hdrop]
        simp
      · have hadv : advancesFileLine l = false := by
          simp [advancesFileLine, hh, hd]
        rw [fileLineFormula_concat_nonheader ls l hh s1.fileLineIndex hf]
        simp [hadv]
      · have hadv : advancesFileLine l = true := by
          simp [advancesFileLine, hh, hd]
        rw [fileLineFormula_concat_nonheader ls l hh s1.fileLineIndex hf]
        simp [hadv]
      · have hadv : advancesFileLine l = true := by
          simp [advancesFileLine, hh, hd]
        rw [fileLineFormula_concat_nonheader ls l hh s1.fileLineIndex hf]
        simp [hadv]

/-! ## Invariants of the accumulated line map -/

/-- Every recorded diff position is at least 1 and at most the current
`diffLineIndex`, and positions strictly decrease along the (most recent
first) association list. -/
def mapInv (s : MapState) : Prop :=
  (∀ e ∈ s.lineMap, 1 ≤ e.2 ∧ e.2 ≤ s.diffLineIndex) ∧
  s.lineMap.Pairwise (fun a b => b.2 < a.2)

theorem stepLine_mapInv (s s' : MapState) (l : List Char)
    (h : stepLine s l = some s') (hs : mapInv s) : mapInv s' := by
  obtain ⟨hb, hp⟩ := hs
  rcases stepLine_cases s l s' h with
    ⟨_, n, _, rfl⟩ | ⟨_, _, rfl⟩ | ⟨_, _, _, rfl⟩ | ⟨_, _, _, rfl⟩
  · exact ⟨hb, hp⟩
  · exact ⟨fun e he => ⟨(hb e he).1, Nat.le_succ_of_le (hb e he).2⟩, hp⟩
  · constructor
    · intro e he
      simp only [recordKV, List.mem_cons] at he
      rcases he with rfl | he'
      · exact ⟨Nat.succ_le_succ (Nat.zero_le _), le_refl _⟩
      · exact ⟨(hb e he').1, Nat.le_succ_of_le (hb e he').2⟩
    · refine List.Pairwise.cons ?_ hp
      intro b hbmem
      exact Nat.lt_succ_of_le (hb b hbmem).2
  · exact ⟨fun e he => ⟨(hb e he).1, Nat.le_succ_of_le (hb e he).2⟩, hp⟩

theorem processLines_mapInv (ls : List (List Char)) :
    ∀ s0 s : MapState, processLines s0 ls = some s → mapInv s0 → mapInv s := by
  induction ls with
  | nil =>
    intro s0 s h h0
    simp only [processLines, Option.some.injEq] at h
    subst h
    exact h0
  | cons l ls ih =>
    intro s0 s h h0
    simp only [processLines] at h
    cases hst : stepLine s0 l with
    | none => rw [hst] at h; cases h
    | some s1 =>
      rw [hst] at h
      exact ih s1 s h (stepLine_mapInv s0 s1 l hst h0)

theorem initState_mapInv : mapInv initState := by
  constructor
  · intro e he
    cases he
  · exact List.Pairwise.nil

/-- Every entry of the final map was recorded at an addition line, at that
line's spec-side post-change file line number. -/
theorem processLines_provenance (lines : List (List Char)) :
    ∀ s : MapState, processLines initState lines = some s →
      ∀ e ∈ s.lineMap, ∃ i, i < lines.length ∧
        isAddition (lines.getD i []) = true ∧
        newFileLineAt lines i = some e.1 := by
  induction lines using List.reverseRecOn with
  | nil =>
    intro s h e he
    simp only [processLines, Option.some.injEq] at h
    subst h
    cases he
  | append_singleton ls l ih =>
    intro s h e he
    have horig := h
    rw [processLines_append] at h
    cases hp : processLines initState ls with
    | none => rw [hp] at h; cases h
    | some s1 =>
      rw [hp] at h
      have h' : processLines s1 [l] = some s := h
      have hstep := processLines_singleton s1 s l h'
      have hlift : ∀ e' ∈ s1.lineMap, ∃ i, i < (ls ++ [l]).length ∧
          isAddition ((ls ++ [l]).getD i []) = true ∧
          newFileLineAt (ls ++ [l]) i = some e'.1 := by
        intro e' he'
        obtain ⟨i, hi, hadd, hnf⟩ := ih s1 hp e' he'
        refine ⟨i, ?_, ?_, ?_⟩
        · simp only [List.length_append, List.length_singleton]
          omega
        · rw [getD_append_lt ls [l] i hi]
          exact hadd
        · rw [newFileLineAt_concat_stable ls l i hi]
          exact hnf
      rcases stepLine_cases s1 l s hstep with
        ⟨hh, n, hn, rfl⟩ | ⟨hh, hd, rfl⟩ | ⟨hh, hd, ha, rfl⟩ | ⟨hh, hd, ha, rfl⟩
      · exact hlift e he
      · exact hlift e he
      · simp only [recordKV, List.mem_cons] at he
        rcases he with rfl | he'
        · refine ⟨ls.length, ?_, ?_, ?_⟩
          · simp
          · rw [getD_concat_self]
            exact ha
          · unfold newFileLineAt
            rw [getD_concat_self, if_pos (by simp [ha] : isAddition l = true)]
            have htake : (ls ++ [l]).take (ls.length + 1) = ls ++ [l] := by simp
            rw [htake]
            exact processLines_fileLine (ls ++ [l]) _ horig
        · exact hlift e he'
      · exact hlift e he

theorem getKV_mem (m : LineMap) (k : Int) (v : Nat) (h : getKV m k = some v) :
    (k, v) ∈ m := by
  induction m with
  | nil => simp [getKV] at h
  | cons e es ih =>
    rcases e with ⟨k', v'⟩
    by_cases hk : k' = k
    · subst hk
      simp [getKV, List.find?_cons] at h
      subst h
      exact List.mem_cons_self _ _
    · simp [getKV, List.find?_cons, hk] at h
      exact List.mem_cons_of_mem _ (ih (by simpa [getKV] using h))

/-! ## Concrete sample environments -/

/-- A hosting environment whose every request errors. -/
def envAllErr : Env :=
  ⟨fun _ => none, fun _ => none, fun _ _ => none, fun _ _ => [], fun _ => false⟩

/-- Environment of spec Scenario E: a pull request with two commits, the
file listing of `"c1"` errors, that of `"c2"` succeeds with one analyzable
file carrying one finding on a mapped line. -/
def envTwoCommits : Env :=
  ⟨fun _ => some [⟨"c1"⟩, ⟨"c2"⟩],
   fun sha => if sha = "c2" then some [⟨"a.js", some "@@ -1,0 +1,1 @@\n+x\n"⟩] else none,
   fun _ _ => some "var x",
   fun _ _ => [⟨none, "msg", 1⟩],
   fun _ => true⟩

/-- Sample changed-file list for the file filter. -/
def sampleFiles : List ChangedFile := [⟨"a.js", none⟩, ⟨"b.css", none⟩]

/-! ## The claims -/

/-- C1: `getLineMapFromPatchString` maintains exactly two counters over
the patch lines: `diffLineIndex` starts at 0 for the whole patch, grows by
one for every line that is not a hunk header and is never reset at a hunk
header (final value = initial value + number of non-header lines);
`fileLineIndex` is reset to `newStart - 1` at every hunk-header line, with
`newStart` the `+<digits>` field of the `@@` header; the lines (and hence
the hunks) of a patch are processed in sequence. -/
theorem lineMap_counter_discipline :
    (initState.diffLineIndex = 0 ∧
      ∀ p : String, getLineMapFromPatchString p =
        (processLines initState (splitLines p.data)).map MapState.lineMap) ∧
    (∀ (ls : List (List Char)) (s0 s : MapState), processLines s0 ls = some s →
        s.diffLineIndex = s0.diffLineIndex + ls.countP fun l => !isHeader l) ∧
    (∀ (s : MapState) (l : List Char) (n : Nat), isHeader l = true →
        firstPlusNum l = some n →
        stepLine s l = some { s with fileLineIndex := (n : Int) - 1 }) ∧
    (∀ (s0 : MapState) (l1 l2 : List (List Char)),
        processLines s0 (l1 ++ l2) =
          (processLines s0 l1).bind fun s1 => processLines s1 l2) :=
  ⟨⟨rfl, fun _ => rfl⟩,
   fun ls s0 s h => processLines_diff ls s0 s h,
   fun s l n hh hn => stepLine_header s l n hh hn,
   fun s0 l1 l2 => processLines_append s0 l1 l2⟩

theorem lineMap_counter_discipline_witness :
    (⟨2, 2, [((2 : Int), 2)]⟩ : MapState).diffLineIndex =
      initState.diffLineIndex + (splitLines " a\n+b".data).countP (fun l => !isHeader l) ∧
    stepLine initState "@@ -1,2 +5,3 @@".data =
      some { initState with fileLineIndex := (5 : Int) - 1 } :=
  ⟨lineMap_counter_discipline.2.1 (splitLines " a\n+b".data) initState
      ⟨2, 2, [((2 : Int), 2)]⟩ rfl,
   lineMap_counter_discipline.2.2.1 initState "@@ -1,2 +5,3 @@".data 5 rfl rfl⟩

/-- C2: for every standard-format patch string (first line a hunk header),
every key of the returned line map is the post-change file line number of
an addition line (`+` prefix) of the patch; and no non-addition line
(hunk header, deletion or context line) ever changes the map. -/
theorem lineMap_keys_are_addition_lines :
    (∀ (p : String) (m : LineMap) (k : Int) (v : Nat),
        getLineMapFromPatchString p = some m →
        isHeader ((splitLines p.data).headD []) = true →
        getKV m k = some v →
        ∃ i, i < (splitLines p.data).length ∧
          isAddition ((splitLines p.data).getD i []) = true ∧
          newFileLineAt (splitLines p.data) i = some k) ∧
    (∀ (s : MapState) (l : List Char) (s' : MapState), stepLine s l = some s' →
        isAddition l = false → s'.lineMap = s.lineMap) := by
  constructor
  · intro p m k v hm _ hkv
    unfold getLineMapFromPatchString at hm
    cases hp : processLines initState (splitLines p.data) with
    | none => rw [hp] at hm; cases hm
    | some s =>
      rw [hp] at hm
      have hms : s.lineMap = m := by simpa using hm
      have hmem : ((k, v) : Int × Nat) ∈ s.lineMap := by
        rw [hms]
        exact getKV_mem m k v hkv
      exact processLines_provenance (splitLines p.data) s hp (k, v) hmem
  · intro s l s' h ha
    rcases stepLine_cases s l s' h with
      ⟨_, n, _, rfl⟩ | ⟨_, _, rfl⟩ | ⟨_, _, ha', rfl⟩ | ⟨_, _, _, rfl⟩
    · rfl
    · rfl
    · rw [ha] at ha'; cases ha'
    · rfl

theorem lineMap_keys_are_addition_lines_witness :
    ∃ i, i < (splitLines ("@@ -1,2 +1,3 @@\n a\n+b\n c\n").data).length ∧
      isAddition ((splitLines ("@@ -1,2 +1,3 @@\n a\n+b\n c\n").data).getD i []) = true ∧
      newFileLineAt (splitLines ("@@ -1,2 +1,3 @@\n a\n+b\n c\n").data) i = some 2 :=
  lineMap_keys_are_addition_lines.1 "@@ -1,2 +1,3 @@\n a\n+b\n c\n" [((2 : Int), 2)]
    2 2 rfl rfl rfl

/-- C3: the two worked examples of the spec: the patch
`"@@ -1,2 +1,3 @@\n a\n+b\n c\n"` yields exactly the mapping 2 ↦ 2, and
the patch `"@@ -1,1 +1,1 @@\n-old\n+new\n"` yields exactly the mapping
1 ↦ 2. -/
theorem lineMap_worked_scenarios :
    getLineMapFromPatchString "@@ -1,2 +1,3 @@\n a\n+b\n c\n" = some [(2, 2)] ∧
    getLineMapFromPatchString "@@ -1,1 +1,1 @@\n-old\n+new\n" = some [(1, 2)] :=
  ⟨rfl, rfl⟩

/-- C4: the empty patch string yields an empty map with no error, but an
absent (`undefined`) patch, as a binary file or a rename without change
produces, makes `getLineMapFromPatchString` throw a `TypeError`
(`patchString.split` on `undefined`), so the function is not total on the
empty-or-absent inputs as claimed. -/
theorem lineMap_empty_vs_absent_patch :
    getLineMapOpt (some "") = some [] ∧ getLineMapOpt none = none :=
  ⟨rfl, rfl⟩

/-- C5: when the commit listing errors, `getCommitsForPullRequest` logs
the error but still invokes its callback with `undefined` commits, so
`commits.map` inside `treatPayload` throws an uncaught `TypeError`
(`crashed = true`) instead of aborting cleanly; no comments are submitted
before the crash. -/
theorem listCommits_failure_throws :
    ∀ (env : Env) (pr : PullReq), env.listCommits pr.number = none →
      runTreatPayload env pr =
        ⟨[Effect.callListCommits pr.number, Effect.logError], true⟩ := by
  intro env pr h
  unfold runTreatPayload
  rw [h]

theorem listCommits_failure_throws_witness :
    runTreatPayload envAllErr ⟨1⟩ =
      ⟨[Effect.callListCommits 1, Effect.logError], true⟩ :=
  listCommits_failure_throws envAllErr ⟨1⟩ rfl

/-- C6: a file-listing failure for commit `"c1"` makes the per-commit
callback destructure `{files}` from an `undefined` response, throwing an
uncaught `TypeError` (nothing is even logged) that crashes the handling,
so commit `"c2"` of the same event is never processed — although
processing `"c2"` alone would have submitted a comment. -/
theorem commit_failure_not_isolated :
    runTreatPayload envTwoCommits ⟨1⟩ =
      ⟨[Effect.callListCommits 1, Effect.callGetCommit "c1"], true⟩ ∧
    runCommit envTwoCommits 1 ⟨"c2"⟩ =
      ⟨[Effect.callGetCommit "c2", Effect.callGetContent "a.js" "c2",
        Effect.callCreateComment 1 "c2" "a.js" 1 "**Eslint**: msg"], false⟩ :=
  ⟨rfl, rfl⟩

/-- C7: an event body that is absent or lacks a `pull_request` key causes
zero HostingClient calls (an empty effect trace, no crash) while the
request is still acknowledged. -/
theorem no_pull_request_no_calls :
    ∀ (env : Env) (body : Option Body),
      (body = none ∨ ∃ b, body = some b ∧ b.pull_request = none) →
      runPostHandler env body = (⟨[], false⟩, true) := by
  intro env body h
  rcases h with rfl | ⟨b, rfl, hb⟩
  · rfl
  · simp only [runPostHandler, hb]

theorem no_pull_request_no_calls_witness :
    runPostHandler envAllErr (some ⟨none⟩) = (⟨[], false⟩, true) :=
  no_pull_request_no_calls envAllErr (some ⟨none⟩) (Or.inr ⟨⟨none⟩, rfl, rfl⟩)

/-- C8: `filterJavascriptFiles` is an order-preserving filter: its output
is a subsequence of its input, and every returned entry's filename
satisfies the configured inclusion pattern (hence no failing entry is
returned). -/
theorem filterJavascriptFiles_spec :
    ∀ (pat : String → Bool) (files : List ChangedFile),
      (filterJavascriptFiles pat files).Sublist files ∧
      ∀ f ∈ filterJavascriptFiles pat files, pat f.filename = true := by
  intro pat files
  refine ⟨List.filter_sublist files, ?_⟩
  intro f hf
  simpa using List.of_mem_filter hf

theorem filterJavascriptFiles_spec_witness :
    (filterJavascriptFiles (fun s => s.length = 4) sampleFiles).Sublist sampleFiles ∧
    (fun s : String => (s.length = 4 : Bool)) "a.js" = true :=
  ⟨(filterJavascriptFiles_spec (fun s => s.length = 4) sampleFiles).1,
   (filterJavascriptFiles_spec (fun s => s.length = 4) sampleFiles).2
     ⟨"a.js", none⟩ (by decide)⟩

/-- C9: every diff position stored in a line map produced by
`getLineMapFromPatchString` is at least 1, hence the truthiness test
`if (diffLinePosition)` of `sendSingleComment` is equivalent to key
membership: a comment is submitted exactly when the finding's line is a
key of the map. -/
theorem lineMap_positions_positive :
    (∀ (p : String) (m : LineMap), getLineMapFromPatchString p = some m →
        ∀ (k : Int) (v : Nat), getKV m k = some v → 1 ≤ v) ∧
    (∀ (p : String) (m : LineMap), getLineMapFromPatchString p = some m →
        ∀ (number : Int) (filename : String) (f : Finding) (sha : String),
          sendSingleComment number filename m f sha ≠ [] ↔
            (getKV m f.line).isSome = true) := by
  have hpos : ∀ (p : String) (m : LineMap), getLineMapFromPatchString p = some m →
      ∀ (k : Int) (v : Nat), getKV m k = some v → 1 ≤ v := by
    intro p m hm k v hkv
    unfold getLineMapFromPatchString at hm
    cases hp : processLines initState (splitLines p.data) with
    | none => rw [hp] at hm; cases hm
    | some s =>
      rw [hp] at hm
      have hms : s.lineMap = m := by simpa using hm
      have hinv := processLines_mapInv (splitLines p.data) initState s hp initState_mapInv
      have hmem : ((k, v) : Int × Nat) ∈ s.lineMap := by
        rw [hms]
        exact getKV_mem m k v hkv
      exact (hinv.1 (k, v) hmem).1
  refine ⟨hpos, ?_⟩
  intro p m hm number filename f sha
  cases hkv : getKV m f.line with
  | none => simp [sendSingleComment, hkv, jsTruthy]
  | some v =>
    have h1 := hpos p m hm f.line v hkv
    have hne : v ≠ 0 := by omega
    simp [sendSingleComment, hkv, jsTruthy, hne]

theorem lineMap_positions_positive_witness :
    (1 : Nat) ≤ 2 ∧
    (sendSingleComment 1 "a.js" [((2 : Int), 2)] ⟨none, "m", 2⟩ "s" ≠ [] ↔
      (getKV [((2 : Int), 2)] 2).isSome = true) :=
  ⟨lineMap_positions_positive.1 "@@ -1,2 +1,3 @@\n a\n+b\n c\n" [((2 : Int), 2)] rfl 2 2 rfl,
   lineMap_positions_positive.2 "@@ -1,2 +1,3 @@\n a\n+b\n c\n" [((2 : Int), 2)] rfl
     1 "a.js" ⟨none, "m", 2⟩ "s"⟩

/-- C10: the line map produced by `getLineMapFromPatchString` is
injective: distinct file-line keys are mapped to distinct diff positions,
because each recorded entry carries a strictly larger diff position than
every entry recorded before it. -/
theorem lineMap_distinct_keys_distinct_positions :
    ∀ (p : String) (m : LineMap), getLineMapFromPatchString p = some m →
      ∀ (k1 k2 : Int) (v1 v2 : Nat), getKV m k1 = some v1 → getKV m k2 = some v2 →
        k1 ≠ k2 → v1 ≠ v2 := by
  intro p m hm k1 k2 v1 v2 h1 h2 hk
  unfold getLineMapFromPatchString at hm
  cases hp : processLines initState (splitLines p.data) with
  | none => rw [hp] at hm; cases hm
  | some s =>
    rw [hp] at hm
    have hms : s.lineMap = m := by simpa using hm
    have hinv := processLines_mapInv (splitLines p.data) initState s hp initState_mapInv
    have hpair : m.Pairwise (fun a b => a.2 ≠ b.2) := by
      rw [← hms]
      exact hinv.2.imp (fun hr => (Nat.ne_of_lt hr).symm)
    have hmem1 := getKV_mem m k1 v1 h1
    have hmem2 := getKV_mem m k2 v2 h2
    have hne : ((k1, v1) : Int × Nat) ≠ (k2, v2) := by
      intro hc
      exact hk (congrArg Prod.fst hc)
    exact hpair.forall (fun _ _ hr => hr.symm) hmem1 hmem2 hne

theorem lineMap_distinct_keys_distinct_positions_witness : (1 : Nat) ≠ 2 :=
  lineMap_distinct_keys_distinct_positions "@@ -1,2 +1,2 @@\n+x\n+y\n"
    [((2 : Int), 2), ((1 : Int), 1)] rfl 1 2 1 2 rfl rfl (by decide)

end EslintBot
